import Mathlib

/-
Verification development for the character-level LSTM trainer in `lstm.py`
(single-layer LSTM, manual BPTT, Adagrad optimizer, gradient-check mode).

Modelling conventions:
* numpy column vectors of length `n` are `Vec n := Fin n → ℚ`; matrices of
  shape `(m, n)` are `Mat m n := Fin m → Fin n → ℚ`.  Elementwise `+`, `*`,
  `-` on arrays are the pointwise `Pi` operations.
* the transcendental primitives `np.exp`, `np.log`, `np.tanh` and `np.sqrt`
  are abstracted as function parameters `exp log tanh sqrtq : ℚ → ℚ`; every
  derived function of the source (`sigmoid`, `softmax`, ...) is defined from
  them exactly as in the source.  All theorems hold for every interpretation
  of these primitives.
* Python failure paths (IndexError on a missing list element or an
  out-of-range one-hot index, KeyError on a missing activation key) are
  modelled by `Option`: `none` is an uncaught runtime error.
* rational division is total in Lean (`x / 0 = 0`); places where the source
  can divide by zero are discussed at the corresponding claim.
-/

set_option maxHeartbeats 1000000
set_option maxRecDepth 100000

namespace LstmPy

abbrev Vec (n : ℕ) := Fin n → ℚ

abbrev Mat (m n : ℕ) := Fin m → Fin n → ℚ

/-- `np.dot` of a matrix with a column vector. -/
def matVec {m n : ℕ} (W : Mat m n) (v : Vec n) : Vec m :=
  fun i => ∑ j, W i j * v j

/-- Outer product `np.dot(a, b.T)` of two column vectors. -/
def outer {m n : ℕ} (a : Vec m) (b : Vec n) : Mat m n :=
  fun i j => a i * b j

/-- `W.T`, matrix transpose. -/
def transpose {m n : ℕ} (W : Mat m n) : Mat n m :=
  fun i j => W j i

/-- Elementwise application of a scalar function to an array. -/
def vmap (f : ℚ → ℚ) {n : ℕ} (v : Vec n) : Vec n :=
  fun i => f (v i)

/-- One-hot column vector: `np.zeros((n,1))` followed by `x[k] = 1`.
(The guard `k < n`, which Python enforces by raising IndexError, is placed
at the call sites in `forwardGo`.) -/
def onehot (n k : ℕ) : Vec n :=
  fun j => if (j : ℕ) = k then 1 else 0

/-- First `H` rows of a concatenated `[h; x]` column vector (`dz[:hidden_size]`). -/
def firstH {H E : ℕ} (v : Vec (H + E)) : Vec H :=
  fun j => v (Fin.castAdd E j)

/-- Remaining `E` rows of a concatenated `[h; x]` column vector (`dz[hidden_size:]`). -/
def restE {H E : ℕ} (v : Vec (H + E)) : Vec E :=
  fun j => v (Fin.natAdd H j)

/-- `sigmoid` from the source: `1 / (1 + np.exp(-x))`. -/
def sigmoid (exp : ℚ → ℚ) (x : ℚ) : ℚ :=
  1 / (1 + exp (-x))

/-- `dsigmoid` from the source: derivative of the sigmoid expressed in the
sigmoid's own output, `y * (1 - y)`. -/
def dsigmoid (y : ℚ) : ℚ :=
  y * (1 - y)

/-- `dtanh` from the source: derivative of tanh expressed in tanh's own
output, `1 - x * x`. -/
def dtanh (x : ℚ) : ℚ :=
  1 - x * x

/-- Maximum of a list of rationals; `np.max` on a nonempty array (the source
only applies it to logit vectors, which are nonempty whenever the vocabulary
is). -/
def listMax : List ℚ → ℚ
  | [] => 0
  | [a] => a
  | a :: b :: r => max a (listMax (b :: r))

/-- `np.max` over a column vector. -/
def vmax {n : ℕ} (v : Vec n) : ℚ :=
  listMax ((List.finRange n).map v)

/-- The numerically stable `softmax` from the source:
`e_x = np.exp(x - np.max(x)); e_x / e_x.sum()`. -/
def softmax (exp : ℚ → ℚ) {n : ℕ} (x : Vec n) : Vec n :=
  let e_x : Vec n := fun i => exp (x i - vmax x)
  fun i => e_x i / ∑ j, e_x j

/-- The trainable parameter store of the model (`Wex`, the four gate weight
matrices and biases, and the output projection).  `V`, `E`, `H` stand for
`vocab_size`, `emb_size`, `hidden_size`; the concatenation size is `H + E`
with the hidden part first, matching `np.row_stack((hs[t-1], wes[t]))`.
The same shape-indexed record is reused for the gradient tuple returned by
`backward` and for the Adagrad momentum accumulators (which the source
creates with `np.zeros_like`). -/
structure Params (V E H : ℕ) where
  Wex : Mat E V
  Wf : Mat H (H + E)
  Wi : Mat H (H + E)
  Wo : Mat H (H + E)
  Wc : Mat H (H + E)
  bf : Vec H
  bi : Vec H
  bo : Vec H
  bc : Vec H
  Why : Mat V H
  by' : Vec V

/-- All-zero parameter/gradient record (`np.zeros_like` on every field). -/
def zeroParams (V E H : ℕ) : Params V E H :=
  ⟨0, 0, 0, 0, 0, 0, 0, 0, 0, 0, 0⟩

/-- Sum of two gradient records (the `+=` accumulation across timesteps). -/
def addParams {V E H : ℕ} (a b : Params V E H) : Params V E H :=
  ⟨a.Wex + b.Wex, a.Wf + b.Wf, a.Wi + b.Wi, a.Wo + b.Wo, a.Wc + b.Wc,
   a.bf + b.bf, a.bi + b.bi, a.bo + b.bo, a.bc + b.bc,
   a.Why + b.Why, a.by' + b.by'⟩

/-- The values the forward pass stores for one timestep `t`: the dictionary
entries `xs[t], wes[t], zs[t], f_gate[t], i_gate[t], c_cand[t], cs[t],
o_gate[t], hs[t], os[t], ps[t], ys[t]`. -/
structure FwdStep (V E H : ℕ) where
  xs : Vec V
  wes : Vec E
  zs : Vec (H + E)
  f_gate : Vec H
  i_gate : Vec H
  c_cand : Vec H
  cs : Vec H
  o_gate : Vec H
  hs : Vec H
  os : Vec V
  ps : Vec V
  ys : Vec V

/-- The activation record returned by `forward`: the `-1` entries of the
`hs`/`cs` dictionaries plus one `FwdStep` per timestep `0 .. T-1`. -/
structure Activations (V E H : ℕ) where
  hs_init : Vec H
  cs_init : Vec H
  steps : List (FwdStep V E H)

/-- Cross-entropy contribution of one timestep:
`np.sum(-np.log(ps[t]) * ys[t])`. -/
def lossT (log : ℚ → ℚ) {V E H : ℕ} (st : FwdStep V E H) : ℚ :=
  ∑ j, (-(log (st.ps j))) * st.ys j

/-- The straight-line body of one forward timestep (source lines: the one-hot
encoding, `wes[t] = np.dot(Wex, xs[t])`, `zs[t] = np.row_stack((hs[t-1],
wes[t]))`, the four gates, `cs[t]`, `hs[t]`, the logits `os[t]`, the
probabilities `ps[t]`, and the one-hot target `ys[t]`). -/
def forwardStep {V E H : ℕ} (P : Params V E H) (exp tanh : ℚ → ℚ)
    (h c : Vec H) (inp tgt : ℕ) : FwdStep V E H :=
  let xs : Vec V := onehot V inp
  let wes : Vec E := matVec P.Wex xs
  let zs : Vec (H + E) := Fin.append h wes
  let f_gate : Vec H := vmap (sigmoid exp) (matVec P.Wf zs + P.bf)
  let i_gate : Vec H := vmap (sigmoid exp) (matVec P.Wi zs + P.bi)
  let c_cand : Vec H := vmap tanh (matVec P.Wc zs + P.bc)
  let cs : Vec H := f_gate * c + i_gate * c_cand
  let o_gate : Vec H := vmap (sigmoid exp) (matVec P.Wo zs + P.bo)
  let hs : Vec H := o_gate * vmap tanh cs
  let os : Vec V := matVec P.Why hs + P.by'
  let ps : Vec V := softmax exp os
  ⟨xs, wes, zs, f_gate, i_gate, c_cand, cs, o_gate, hs, os, ps, onehot V tgt⟩

/-- The body of the forward loop (`for t in range(len(inputs))`), written as
structural recursion on the remaining inputs; the remaining-targets list is
`targets[t:]`, so the loop's `targets[t]` access is its head (a missing head,
or a one-hot index out of range, is Python's IndexError, i.e. `none`).
Returns the total loss, the per-timestep records in time order, and the last
hidden and cell states. -/
def forwardGo {V E H : ℕ} (P : Params V E H) (exp log tanh : ℚ → ℚ) :
    List ℕ → List ℕ → Vec H → Vec H →
      Option (ℚ × List (FwdStep V E H) × Vec H × Vec H)
  | [], _, h, c => some (0, [], h, c)
  | inp :: is, ts, h, c =>
    if inp < V then
      match ts with
      | [] => none
      | tgt :: ts' =>
        if tgt < V then
          let st : FwdStep V E H := forwardStep P exp tanh h c inp tgt
          match forwardGo P exp log tanh is ts' st.hs st.cs with
          | none => none
          | some (l, ss, hf, cf) => some (lossT log st + l, st :: ss, hf, cf)
        else none
    else none

/-- `forward(inputs, targets, memory)` from the source: returns the loss, the
activation record, and the final `(hs[len(inputs)-1], cs[len(inputs)-1])`
memory pair (for an empty chunk this is the carried-in `-1` entry). -/
def forward {V E H : ℕ} (P : Params V E H) (exp log tanh : ℚ → ℚ)
    (inputs targets : List ℕ) (memory : Vec H × Vec H) :
    Option (ℚ × Activations V E H × (Vec H × Vec H)) :=
  (forwardGo P exp log tanh inputs targets memory.1 memory.2).map
    fun r => (r.1, ⟨memory.1, memory.2, r.2.1⟩, (r.2.2.1, r.2.2.2))

/-- Second definition, written from the wording of spec section 4.1 (and of
claim C1), for the refinement comparison with `forward`: one cell update,
returning the new hidden state, the new cell state and the probability
distribution `softmax(Why · hidden + by)`. -/
def specStep {V E H : ℕ} (P : Params V E H) (exp tanh : ℚ → ℚ)
    (h c : Vec H) (inp : ℕ) : Vec H × Vec H × Vec V :=
  let embedded : Vec E := matVec P.Wex (onehot V inp)
  let concat : Vec (H + E) := Fin.append h embedded
  let forgetG : Vec H := vmap (sigmoid exp) (matVec P.Wf concat + P.bf)
  let inputG : Vec H := vmap (sigmoid exp) (matVec P.Wi concat + P.bi)
  let outputG : Vec H := vmap (sigmoid exp) (matVec P.Wo concat + P.bo)
  let cand : Vec H := vmap tanh (matVec P.Wc concat + P.bc)
  let cNew : Vec H := forgetG * c + inputG * cand
  let hNew : Vec H := outputG * vmap tanh cNew
  (hNew, cNew, softmax exp (matVec P.Why hNew + P.by'))

/-- Entry `k` of a column vector, `0` out of range (the in-range hypothesis
is carried by the theorems that use it). -/
def vecAt {n : ℕ} (v : Vec n) (k : ℕ) : ℚ :=
  if h : k < n then v ⟨k, h⟩ else 0

/-- Second definition, from the wording of spec section 4.1 / claim C1: run
the cell recurrence over the chunk, summing `-log(p_t[target_t])`, and
return the total loss together with the final `(hidden, cell)` pair. -/
def specRun {V E H : ℕ} (P : Params V E H) (exp log tanh : ℚ → ℚ) :
    List ℕ → List ℕ → Vec H → Vec H → ℚ × Vec H × Vec H
  | inp :: is, tgt :: ts, h, c =>
    let s := specStep P exp tanh h c inp
    let r := specRun P exp log tanh is ts s.1 s.2.1
    (-(log (vecAt s.2.2 tgt)) + r.1, r.2)
  | _, _, h, c => (0, h, c)

/-- All named intermediate values of one iteration of the backward loop
(the source locals `do, dh, dh_o, dh_c, dc_f, dc_i, dc_c, dz, dhnext,
dcnext, dwes`; `do` is a Lean keyword, hence `do'`). -/
structure BwdStep (V E H : ℕ) where
  do' : Vec V
  dh : Vec H
  dh_o : Vec H
  dh_c : Vec H
  dc_f : Vec H
  dc_i : Vec H
  dc_c : Vec H
  dz : Vec (H + E)
  dhnext : Vec H
  dcnext : Vec H
  dwes : Vec E

/-- One iteration of the backward loop, given the stored step `st` (the
timestep-`t` activations), `cs_prev = cs[t-1]`, and the carried `dhnext`,
`dcnext` gradients.  A line-by-line transcription of the loop body. -/
def backwardStepVals {V E H : ℕ} (P : Params V E H) (tanh : ℚ → ℚ)
    (st : FwdStep V E H) (cs_prev dhnext dcnext : Vec H) : BwdStep V E H :=
  let do' : Vec V := st.ps - st.ys
  let dh : Vec H := matVec (transpose P.Why) do' + dhnext
  let dh_o : Vec H := vmap dsigmoid st.o_gate * dh * vmap tanh st.cs
  let dh_c : Vec H := st.o_gate * dh * vmap dtanh (vmap tanh st.cs) + dcnext
  let dc_f : Vec H := vmap dsigmoid st.f_gate * cs_prev * dh_c
  let dc_i : Vec H := vmap dsigmoid st.i_gate * st.c_cand * dh_c
  let dc_c : Vec H := vmap dtanh st.c_cand * st.i_gate * dh_c
  let dz : Vec (H + E) :=
    matVec (transpose P.Wo) dh_o + matVec (transpose P.Wi) dc_i +
      matVec (transpose P.Wf) dc_f + matVec (transpose P.Wc) dc_c
  ⟨do', dh, dh_o, dh_c, dc_f, dc_i, dc_c, dz,
   firstH dz, st.f_gate * dh_c, restE dz⟩

/-- The gradient contributions one backward iteration adds to the
accumulators (`dWhy += np.dot(do, hs[t].T)`, `dby += do`,
`dWo += np.dot(dh_o, zs[t].T)`, ..., `dWex += np.dot(dwes, xs[t].T)`). -/
def stepGrads {V E H : ℕ} (st : FwdStep V E H) (B : BwdStep V E H) :
    Params V E H :=
  ⟨outer B.dwes st.xs, outer B.dc_f st.zs, outer B.dc_i st.zs,
   outer B.dh_o st.zs, outer B.dc_c st.zs,
   B.dc_f, B.dc_i, B.dh_o, B.dc_c, outer B.do' st.hs, B.do'⟩

/-- The dictionary lookup `cs[t-1]`: the `-1` entry for `t = 0`, otherwise
the timestep `t-1` record (a missing key is Python's KeyError). -/
def csPrevAt {V E H : ℕ} (acts : Activations V E H) : ℕ → Option (Vec H)
  | 0 => some acts.cs_init
  | k + 1 => (acts.steps.get? k).map (·.cs)

/-- The backward loop `for t in reversed(range(len(inputs)))`, written as
recursion on the number `k` of timesteps still to process (so the call with
`k = len(inputs)` processes `t = k-1, ..., 0`).  Every dictionary access
goes through `Option`. -/
def backwardGo {V E H : ℕ} (P : Params V E H) (tanh : ℚ → ℚ)
    (acts : Activations V E H) :
    ℕ → Vec H → Vec H → Option (Params V E H)
  | 0, _, _ => some (zeroParams V E H)
  | k + 1, dhnext, dcnext =>
    match acts.steps.get? k, csPrevAt acts k with
    | some st, some cp =>
      let B := backwardStepVals P tanh st cp dhnext dcnext
      match backwardGo P tanh acts k B.dhnext B.dcnext with
      | none => none
      | some g => some (addParams g (stepGrads st B))
    | _, _ => none

/-- `np.clip(x, -5, 5)`. -/
def clip (x : ℚ) : ℚ :=
  min 5 (max (-5) x)

/-- Elementwise clipping of every accumulated gradient tensor. -/
def clipParams {V E H : ℕ} (g : Params V E H) : Params V E H :=
  ⟨fun i j => clip (g.Wex i j), fun i j => clip (g.Wf i j),
   fun i j => clip (g.Wi i j), fun i j => clip (g.Wo i j),
   fun i j => clip (g.Wc i j), fun i => clip (g.bf i), fun i => clip (g.bi i),
   fun i => clip (g.bo i), fun i => clip (g.bc i),
   fun i j => clip (g.Why i j), fun i => clip (g.by' i)⟩

/-- `backward(activations, clipping=True)` from the source.  The iteration
count is NOT taken from the activation record: the source reads the
module-level global `inputs` (`for t in reversed(range(len(inputs)))`),
modelled by the explicit argument `inputsLen`.  The initialization
`dhnext = np.zeros_like(hs[0])` requires the timestep-`0` entry to exist. -/
def backward {V E H : ℕ} (P : Params V E H) (tanh : ℚ → ℚ)
    (inputsLen : ℕ) (acts : Activations V E H) (clipping : Bool) :
    Option (Params V E H) :=
  match acts.steps.get? 0 with
  | none => none
  | some _ =>
    match backwardGo P tanh acts inputsLen 0 0 with
    | none => none
    | some g => some (if clipping then clipParams g else g)

/-- One scalar Adagrad update, the body of the zipped parameter-update loop:
`mem += dparam * dparam; param += -learning_rate * dparam / np.sqrt(mem + 1e-8)`.
Returns the new `(param, mem)` pair. -/
def adagrad1 (lr : ℚ) (sqrtq : ℚ → ℚ) (param mem dparam : ℚ) : ℚ × ℚ :=
  let mem' := mem + dparam * dparam
  (param + -lr * dparam / sqrtq (mem' + 1e-8), mem')

/-- The full Adagrad update over the parameter / gradient / momentum
triples, elementwise per parameter; returns (new parameters, new momenta). -/
def adagradUpdate {V E H : ℕ} (lr : ℚ) (sqrtq : ℚ → ℚ)
    (P M G : Params V E H) : Params V E H × Params V E H :=
  (⟨fun i j => (adagrad1 lr sqrtq (P.Wex i j) (M.Wex i j) (G.Wex i j)).1,
    fun i j => (adagrad1 lr sqrtq (P.Wf i j) (M.Wf i j) (G.Wf i j)).1,
    fun i j => (adagrad1 lr sqrtq (P.Wi i j) (M.Wi i j) (G.Wi i j)).1,
    fun i j => (adagrad1 lr sqrtq (P.Wo i j) (M.Wo i j) (G.Wo i j)).1,
    fun i j => (adagrad1 lr sqrtq (P.Wc i j) (M.Wc i j) (G.Wc i j)).1,
    fun i => (adagrad1 lr sqrtq (P.bf i) (M.bf i) (G.bf i)).1,
    fun i => (adagrad1 lr sqrtq (P.bi i) (M.bi i) (G.bi i)).1,
    fun i => (adagrad1 lr sqrtq (P.bo i) (M.bo i) (G.bo i)).1,
    fun i => (adagrad1 lr sqrtq (P.bc i) (M.bc i) (G.bc i)).1,
    fun i j => (adagrad1 lr sqrtq (P.Why i j) (M.Why i j) (G.Why i j)).1,
    fun i => (adagrad1 lr sqrtq (P.by' i) (M.by' i) (G.by' i)).1⟩,
   ⟨fun i j => (adagrad1 lr sqrtq (P.Wex i j) (M.Wex i j) (G.Wex i j)).2,
    fun i j => (adagrad1 lr sqrtq (P.Wf i j) (M.Wf i j) (G.Wf i j)).2,
    fun i j => (adagrad1 lr sqrtq (P.Wi i j) (M.Wi i j) (G.Wi i j)).2,
    fun i j => (adagrad1 lr sqrtq (P.Wo i j) (M.Wo i j) (G.Wo i j)).2,
    fun i j => (adagrad1 lr sqrtq (P.Wc i j) (M.Wc i j) (G.Wc i j)).2,
    fun i => (adagrad1 lr sqrtq (P.bf i) (M.bf i) (G.bf i)).2,
    fun i => (adagrad1 lr sqrtq (P.bi i) (M.bi i) (G.bi i)).2,
    fun i => (adagrad1 lr sqrtq (P.bo i) (M.bo i) (G.bo i)).2,
    fun i => (adagrad1 lr sqrtq (P.bc i) (M.bc i) (G.bc i)).2,
    fun i j => (adagrad1 lr sqrtq (P.Why i j) (M.Why i j) (G.Why i j)).2,
    fun i => (adagrad1 lr sqrtq (P.by' i) (M.by' i) (G.by' i)).2⟩)

/-- The mutable state of the training loop: iteration counter `n`, corpus
cursor `p`, carried recurrent state `(hprev, cprev)`, the parameter store,
the Adagrad momenta, and the reported smoothed loss. -/
structure TrainState (V E H : ℕ) where
  n : ℕ
  p : ℕ
  hprev : Vec H
  cprev : Vec H
  params : Params V E H
  moms : Params V E H
  smooth_loss : ℚ

/-- Chunk preparation (train-loop lines
`if p+seq_length+1 >= len(data) or n == 0: hprev = cprev = zeros; p = 0`):
returns the cursor and recurrent state actually used by this iteration. -/
def prepareChunk (H : ℕ) (dataLen seqLen n p : ℕ) (h c : Vec H) :
    ℕ × Vec H × Vec H :=
  if p + seqLen + 1 ≥ dataLen ∨ n = 0 then (0, 0, 0) else (p, h, c)

/-- The input slice `data[p : p+seq_length]` (the corpus is modelled after
`char_to_ix`, i.e. as the list of character indices). -/
def inputsOf (seqLen : ℕ) (data : List ℕ) (p : ℕ) : List ℕ :=
  (data.drop p).take seqLen

/-- The target slice `data[p+1 : p+seq_length+1]`. -/
def targetsOf (seqLen : ℕ) (data : List ℕ) (p : ℕ) : List ℕ :=
  (data.drop (p + 1)).take seqLen

/-- One iteration of the training loop (`option == 'train'`): chunk
preparation, `forward`, `backward` (with clipping, on the global `inputs`
just sliced), state carry `hprev, cprev = memory`, smoothed-loss tracking,
the zipped Adagrad update, and the cursor/counter advance.  The periodic
`sample` call only prints and is omitted.  `none` models an uncaught
runtime error inside the iteration. -/
def trainStep {V E H : ℕ} (seqLen : ℕ) (exp log tanh sqrtq : ℚ → ℚ)
    (lr : ℚ) (data : List ℕ) (st : TrainState V E H) :
    Option (TrainState V E H) :=
  let pr := prepareChunk H data.length seqLen st.n st.p st.hprev st.cprev
  let inputs := inputsOf seqLen data pr.1
  let targets := targetsOf seqLen data pr.1
  match forward st.params exp log tanh inputs targets (pr.2.1, pr.2.2) with
  | none => none
  | some (loss, acts, mem) =>
    match backward st.params tanh inputs.length acts true with
    | none => none
    | some grads =>
      let upd := adagradUpdate lr sqrtq st.params st.moms grads
      some ⟨st.n + 1, pr.1 + seqLen, mem.1, mem.2, upd.1, upd.2,
            st.smooth_loss * (999/1000) + loss * (1/1000)⟩

/-- The training run as a total function: iterate `trainStep`, staying put
if an iteration raises (so the run is defined for every step count). -/
def runTotal {V E H : ℕ} (seqLen : ℕ) (exp log tanh sqrtq : ℚ → ℚ)
    (lr : ℚ) (data : List ℕ) (st0 : TrainState V E H) : ℕ → TrainState V E H
  | 0 => st0
  | k + 1 =>
    match trainStep seqLen exp log tanh sqrtq lr data
        (runTotal seqLen exp log tanh sqrtq lr data st0 k) with
    | none => runTotal seqLen exp log tanh sqrtq lr data st0 k
    | some s => s

/-- Elementwise order on matrices. -/
def matLE {m n : ℕ} (A B : Mat m n) : Prop :=
  ∀ i j, A i j ≤ B i j

/-- Elementwise order on column vectors. -/
def vecLE {n : ℕ} (a b : Vec n) : Prop :=
  ∀ i, a i ≤ b i

/-- Elementwise order on a full parameter record (used for the momenta). -/
def paramsLE {V E H : ℕ} (A B : Params V E H) : Prop :=
  matLE A.Wex B.Wex ∧ matLE A.Wf B.Wf ∧ matLE A.Wi B.Wi ∧ matLE A.Wo B.Wo ∧
  matLE A.Wc B.Wc ∧ vecLE A.bf B.bf ∧ vecLE A.bi B.bi ∧ vecLE A.bo B.bo ∧
  vecLE A.bc B.bc ∧ matLE A.Why B.Why ∧ vecLE A.by' B.by'

/-- The layout invariant of claim C3 on the list of stored timesteps: each
step's concatenated vector `zs` carries the previous hidden state in its
first `hidden_size` rows and that step's embedded input in the remaining
rows, where "previous" is threaded through the list. -/
def ZsLayout {V E H : ℕ} : Vec H → List (FwdStep V E H) → Prop
  | _, [] => True
  | hprev, st :: rest =>
    firstH st.zs = hprev ∧ restE st.zs = st.wes ∧ ZsLayout st.hs rest

/-- String form `"(r, c)"` of a numpy shape tuple, as Python's `%s` prints
it. -/
def shapeStr (s : ℕ × ℕ) : String :=
  "(" ++ toString s.1 ++ ", " ++ toString s.2 ++ ")"

/-- The gradcheck assertion message
`"Dimensions dont match between weight and gradient %s and %s." % (weight.shape, grad.shape)`. -/
def dimMismatchMsg (ws gs : ℕ × ℕ) : String :=
  "Dimensions dont match between weight and gradient " ++ shapeStr ws ++
    " and " ++ shapeStr gs ++ "."

/-- The gradcheck relative error
`abs(grad_analytic - grad_numerical) / abs(grad_numerical + grad_analytic)`
(rational division is total: a zero denominator yields `0` here, where the
numpy float computation yields `nan`/`inf`). -/
def rel_error (grad_analytic grad_numerical : ℚ) : ℚ :=
  |grad_analytic - grad_numerical| / |grad_numerical + grad_analytic|

/-- The central-difference numerical gradient
`(loss_positive - loss_negative) / (2 * delta)`. -/
def grad_numerical (loss_positive loss_negative delta : ℚ) : ℚ :=
  (loss_positive - loss_negative) / (2 * delta)

/-- One weight/gradient pair of the gradcheck loop: the shape assertion runs
first (`assert(weight.shape == grad.shape), str_`), and only then is the
parameter name printed and every element checked; per element the source
computes `rel_error` and flags a warning when it exceeds `0.01`.  The
per-element `(grad_analytic, grad_numerical)` values are the pair list; the
parameter name is available to the loop body but the assertion message
`str_` is built from the two shapes alone. -/
def gradcheckPair (name : String) (ws gs : ℕ × ℕ) (elems : List (ℚ × ℚ)) :
    Except String (String × List Bool) :=
  if ws = gs then
    .ok (name, elems.map fun e => rel_error e.1 e.2 > 1/100)
  else
    .error (dimMismatchMsg ws gs)

/-- `emb_size` from the source. -/
def emb_size : ℕ := 4

/-- `hidden_size` from the source. -/
def hidden_size : ℕ := 32

/-- `seq_length` from the source. -/
def seq_length : ℕ := 64

/-- `learning_rate` from the source. -/
def learning_rate : ℚ := 5e-2

/-- A concrete interpretation of the abstract numeric primitives, used to
evaluate the model at closed inputs (the structural theorems hold for every
interpretation, so any computable one can witness them). -/
def idfun : ℚ → ℚ := fun x => x

/- ------------------------------------------------------------------ -/
/- Theorems.                                                          -/
/- ------------------------------------------------------------------ -/

lemma paramsLE_refl {V E H : ℕ} (A : Params V E H) : paramsLE A A :=
  ⟨fun _ _ => le_refl _, fun _ _ => le_refl _, fun _ _ => le_refl _,
   fun _ _ => le_refl _, fun _ _ => le_refl _, fun _ => le_refl _,
   fun _ => le_refl _, fun _ => le_refl _, fun _ => le_refl _,
   fun _ _ => le_refl _, fun _ => le_refl _⟩

lemma sum_mul_onehot {n : ℕ} (f : Vec n) (k : ℕ) (hk : k < n) :
    (∑ j, f j * onehot n k j) = f ⟨k, hk⟩ := by
  have h1 : ∀ j : Fin n, ((j : ℕ) = k) = (j = ⟨k, hk⟩) := by
    intro j
    apply propext
    exact ⟨fun h => Fin.ext h, fun h => congrArg Fin.val h⟩
  simp only [onehot, mul_ite, mul_one, mul_zero, h1, Finset.sum_ite_eq',
    Finset.mem_univ, if_true]

lemma lossT_forwardStep {V E H : ℕ} (P : Params V E H) (exp log tanh : ℚ → ℚ)
    (h c : Vec H) (inp tgt : ℕ) (htg : tgt < V) :
    lossT log (forwardStep P exp tanh h c inp tgt) =
      -(log (vecAt (forwardStep P exp tanh h c inp tgt).ps tgt)) := by
  have h2 : (forwardStep P exp tanh h c inp tgt).ys = onehot V tgt := rfl
  rw [lossT, h2, sum_mul_onehot (fun j => -(log ((forwardStep P exp tanh h c inp tgt).ps j))) tgt htg]
  rw [vecAt, dif_pos htg]

/-- Claim C2: in each iteration of the backward loop, the output-gate
pre-activation gradient is `dsigmoid` evaluated at the stored gate
activation `o_gate[t]` (not at the pre-activation), times `dh`, times
`tanh(cs[t])`; the cell gradient is
`o_gate[t] * dh * dtanh(tanh(cs[t])) + dcnext` (the tanh derivative applied
to the freshly tanh'd stored cell value, which was stored un-tanh'd); and
the `dcnext` carried to the prior timestep is `f_gate[t] * dh_c`. -/
theorem backward_gate_cell_gradient_formulas {V E H : ℕ} (P : Params V E H)
    (tanh : ℚ → ℚ) (st : FwdStep V E H) (cs_prev dhnext dcnext : Vec H) :
    ((backwardStepVals P tanh st cs_prev dhnext dcnext).dh_o = fun k =>
        dsigmoid (st.o_gate k) *
          (backwardStepVals P tanh st cs_prev dhnext dcnext).dh k *
          tanh (st.cs k))
    ∧ ((backwardStepVals P tanh st cs_prev dhnext dcnext).dh_c = fun k =>
        st.o_gate k * (backwardStepVals P tanh st cs_prev dhnext dcnext).dh k *
          dtanh (tanh (st.cs k)) + dcnext k)
    ∧ ((backwardStepVals P tanh st cs_prev dhnext dcnext).dcnext = fun k =>
        st.f_gate k *
          (backwardStepVals P tanh st cs_prev dhnext dcnext).dh_c k) :=
  ⟨rfl, rfl, rfl⟩

lemma zsLayout_of_forwardGo {V E H : ℕ} (P : Params V E H)
    (exp log tanh : ℚ → ℚ) :
    ∀ (inputs targets : List ℕ) (h c : Vec H)
      (r : ℚ × List (FwdStep V E H) × Vec H × Vec H),
      forwardGo P exp log tanh inputs targets h c = some r →
      ZsLayout h r.2.1 := by
  intro inputs
  induction inputs with
  | nil =>
    intro targets h c r hr
    simp only [forwardGo, Option.some.injEq] at hr
    rw [← hr]
    trivial
  | cons inp is ih =>
    intro targets h c r hr
    cases targets with
    | nil =>
      by_cases hin : inp < V <;> simp [forwardGo, hin] at hr
    | cons tgt ts' =>
      by_cases hin : inp < V
      · by_cases htg : tgt < V
        · simp only [forwardGo, if_pos hin, if_pos htg] at hr
          cases hrec : forwardGo P exp log tanh is ts'
              (forwardStep P exp tanh h c inp tgt).hs
              (forwardStep P exp tanh h c inp tgt).cs with
          | none => rw [hrec] at hr; exact absurd hr (by simp)
          | some r' =>
            rw [hrec] at hr
            obtain ⟨l', ss', hf', cf'⟩ := r'
            simp only [Option.some.injEq] at hr
            rw [← hr]
            refine ⟨funext fun j => Fin.append_left _ _ j,
                    funext fun j => Fin.append_right _ _ j, ?_⟩
            exact ih ts' _ _ _ hrec
        · simp [forwardGo, hin, htg] at hr
      · simp [forwardGo, hin] at hr

/-- Claim C3: every concatenated vector built by the forward pass carries
the previous timestep's hidden state in its first `hidden_size` rows and the
current embedded input in the remaining rows (threaded through the whole
chunk), and the backward pass's split of the recombined concatenated
gradient `dz` preserves this layout: its first `hidden_size` rows become the
`dhnext` carried to the prior step and the remaining rows are the
embedding-space gradient whose outer product with the one-hot input is
accumulated into the embedding matrix's gradient. -/
theorem concat_layout_preserved {V E H : ℕ} (P : Params V E H)
    (exp log tanh : ℚ → ℚ) :
    (∀ (inputs targets : List ℕ) (h c : Vec H),
       (forwardGo P exp log tanh inputs targets h c).elim True
         (fun r => ZsLayout h r.2.1))
    ∧ (∀ (st : FwdStep V E H) (cp dh dc : Vec H),
        (backwardStepVals P tanh st cp dh dc).dhnext =
            firstH (backwardStepVals P tanh st cp dh dc).dz
        ∧ (backwardStepVals P tanh st cp dh dc).dwes =
            restE (backwardStepVals P tanh st cp dh dc).dz
        ∧ (stepGrads st (backwardStepVals P tanh st cp dh dc)).Wex =
            outer (restE (backwardStepVals P tanh st cp dh dc).dz) st.xs) := by
  constructor
  · intro inputs targets h c
    cases hr : forwardGo P exp log tanh inputs targets h c with
    | none => trivial
    | some r => exact zsLayout_of_forwardGo P exp log tanh inputs targets h c r hr
  · intro st cp dh dc
    exact ⟨rfl, rfl, rfl⟩

/-- Claim C7 (amended): in gradient-check mode a weight/gradient pair with
differing shapes fails fast, before any per-element check of that pair, with
the assertion diagnostic built from the two shapes — the parameter name is
not part of the diagnostic (it is only printed after the assertion passes). -/
theorem gradcheck_shape_mismatch_fails_fast (name : String) (ws gs : ℕ × ℕ)
    (elems : List (ℚ × ℚ)) (hne : ws ≠ gs) :
    gradcheckPair name ws gs elems = .error (dimMismatchMsg ws gs) := by
  simp [gradcheckPair, hne]

theorem gradcheck_shape_mismatch_fails_fast_witness :
    gradcheckPair "Wf" (2, 3) (2, 2) [((0 : ℚ), (0 : ℚ))] =
      .error (dimMismatchMsg (2, 3) (2, 2)) :=
  gradcheck_shape_mismatch_fails_fast "Wf" (2, 3) (2, 2) [(0, 0)] (by decide)

/-- Claim C7, counterexample to the claim as stated: the assertion
diagnostic for a concrete mismatched pair spells out the two shapes but does
not contain the offending parameter's name (here `"Wf"`); the name is
printed only after the check passes. -/
theorem gradcheck_message_lacks_name :
    gradcheckPair "Wf" (2, 3) (2, 2) [((0 : ℚ), (0 : ℚ))] =
      .error "Dimensions dont match between weight and gradient (2, 3) and (2, 2)." ∧
    ¬ List.IsInfix "Wf".toList
      "Dimensions dont match between weight and gradient (2, 3) and (2, 2).".toList :=
  ⟨rfl, by decide⟩

/-- Claim C10: the gradient-check relative error
`|analytic - numeric| / |numeric + analytic|` has no guard on its
denominator: whenever the two gradients sum to zero the denominator is `0`
(so the real-number quotient is undefined; numpy produces `nan`/`inf`,
while the total rational division of this model yields `0`), and the
element is neither skipped nor reported — the per-element loop computes
`rel_error` for it unconditionally. -/
theorem gradcheck_rel_error_unguarded (ga gn : ℚ) (name : String)
    (ws : ℕ × ℕ) (elems : List (ℚ × ℚ)) (hsum : gn + ga = 0) :
    |gn + ga| = 0 ∧
    rel_error ga gn = |ga - gn| / |gn + ga| ∧
    gradcheckPair name ws ws ((ga, gn) :: elems) =
      .ok (name, (rel_error ga gn > 1/100) ::
        (elems.map fun e => rel_error e.1 e.2 > 1/100)) := by
  refine ⟨by rw [hsum]; exact abs_zero, rfl, by simp [gradcheckPair]⟩

lemma forwardGo_eq_specRun {V E H : ℕ} (P : Params V E H)
    (exp log tanh : ℚ → ℚ) :
    ∀ (inputs targets : List ℕ) (h c : Vec H),
      inputs.length = targets.length →
      (∀ x ∈ inputs, x < V) → (∀ x ∈ targets, x < V) →
      ∃ ss, forwardGo P exp log tanh inputs targets h c =
        some ((specRun P exp log tanh inputs targets h c).1, ss,
              (specRun P exp log tanh inputs targets h c).2.1,
              (specRun P exp log tanh inputs targets h c).2.2) := by
  intro inputs
  induction inputs with
  | nil =>
    intro targets h c hlen _ _
    have ht : targets = [] := List.length_eq_zero.mp hlen.symm
    subst ht
    exact ⟨[], rfl⟩
  | cons inp is ih =>
    intro targets h c hlen hin htg
    cases targets with
    | nil => exact absurd hlen (by simp)
    | cons tgt ts' =>
      have hinp : inp < V := hin inp (by simp)
      have htgt : tgt < V := htg tgt (by simp)
      have hlen' : is.length = ts'.length := by simpa using hlen
      have hin' : ∀ x ∈ is, x < V := fun x hx => hin x (by simp [hx])
      have htg' : ∀ x ∈ ts', x < V := fun x hx => htg x (by simp [hx])
      obtain ⟨ss, hss⟩ := ih ts' (forwardStep P exp tanh h c inp tgt).hs
        (forwardStep P exp tanh h c inp tgt).cs hlen' hin' htg'
      refine ⟨forwardStep P exp tanh h c inp tgt :: ss, ?_⟩
      simp only [forwardGo, if_pos hinp, if_pos htgt]
      rw [hss]
      simp only [specRun, Option.some.injEq, Prod.mk.injEq, and_true,
        true_and]
      rw [lossT_forwardStep P exp log tanh h c inp tgt htgt]
      exact ⟨rfl, rfl, rfl⟩

/-- Claim C1: for equal-length, nonempty index sequences with all indices in
`[0, V)`, and any initial `(hidden, cell)` pair, `forward` succeeds, its
loss equals the sum over the chunk of `-log(p_t[target_t])` where each
timestep follows the spec's gate/cell/hidden/softmax recurrence
(`specStep`/`specRun`, transcribed from the spec text), and the returned
final memory is exactly the last timestep's `(hidden, cell)` pair.  The
embedding is a pure function of the parameter record, so the call cannot
modify any model parameter. -/
theorem forward_loss_and_final_memory {V E H : ℕ} (P : Params V E H)
    (exp log tanh : ℚ → ℚ) (inputs targets : List ℕ) (h0 c0 : Vec H)
    (hlen : inputs.length = targets.length) (hne : inputs ≠ [])
    (hin : ∀ x ∈ inputs, x < V) (htg : ∀ x ∈ targets, x < V) :
    (forward P exp log tanh inputs targets (h0, c0)).map
        (fun r => (r.1, r.2.2)) =
      some ((specRun P exp log tanh inputs targets h0 c0).1,
            ((specRun P exp log tanh inputs targets h0 c0).2.1,
             (specRun P exp log tanh inputs targets h0 c0).2.2)) := by
  obtain ⟨ss, hss⟩ :=
    forwardGo_eq_specRun P exp log tanh inputs targets h0 c0 hlen hin htg
  simp only [forward]
  rw [hss]
  rfl

theorem forward_loss_and_final_memory_witness :
    (forward (zeroParams 1 1 1) idfun idfun idfun [0] [0]
        ((0 : Vec 1), (0 : Vec 1))).map (fun r => (r.1, r.2.2)) =
      some ((specRun (zeroParams 1 1 1) idfun idfun idfun [0] [0] 0 0).1,
            ((specRun (zeroParams 1 1 1) idfun idfun idfun [0] [0] 0 0).2.1,
             (specRun (zeroParams 1 1 1) idfun idfun idfun [0] [0] 0 0).2.2)) :=
  forward_loss_and_final_memory (zeroParams 1 1 1) idfun idfun idfun [0] [0]
    0 0 rfl (by decide) (by decide) (by decide)

lemma forwardGo_append {V E H : ℕ} (P : Params V E H)
    (exp log tanh : ℚ → ℚ) :
    ∀ (a ta : List ℕ) (h c : Vec H)
      (r1 : ℚ × List (FwdStep V E H) × Vec H × Vec H),
      a.length = ta.length →
      forwardGo P exp log tanh a ta h c = some r1 →
      ∀ (b tb : List ℕ),
        forwardGo P exp log tanh (a ++ b) (ta ++ tb) h c =
          (forwardGo P exp log tanh b tb r1.2.2.1 r1.2.2.2).map
            (fun r2 => (r1.1 + r2.1, r1.2.1 ++ r2.2.1, r2.2.2)) := by
  intro a
  induction a with
  | nil =>
    intro ta h c r1 hlen h1 b tb
    have ht : ta = [] := List.length_eq_zero.mp hlen.symm
    subst ht
    simp only [forwardGo, Option.some.injEq] at h1
    subst h1
    dsimp only
    simp only [List.nil_append]
    cases forwardGo P exp log tanh b tb h c with
    | none => rfl
    | some r2 => simp
  | cons inp is iha =>
    intro ta h c r1 hlen h1 b tb
    cases ta with
    | nil => exact absurd hlen (by simp)
    | cons tgt ts' =>
      have hlen' : is.length = ts'.length := by simpa using hlen
      by_cases hinp : inp < V
      · by_cases htgt : tgt < V
        · simp only [forwardGo, if_pos hinp, if_pos htgt] at h1
          cases hrec : forwardGo P exp log tanh is ts'
              (forwardStep P exp tanh h c inp tgt).hs
              (forwardStep P exp tanh h c inp tgt).cs with
          | none => rw [hrec] at h1; exact absurd h1 (by simp)
          | some r' =>
            rw [hrec] at h1
            simp only [Option.some.injEq] at h1
            subst h1
            have hcat := iha ts' (forwardStep P exp tanh h c inp tgt).hs
              (forwardStep P exp tanh h c inp tgt).cs r' hlen' hrec b tb
            simp only [List.cons_append, forwardGo, if_pos hinp,
              if_pos htgt, List.append_eq]
            rw [hcat]
            cases forwardGo P exp log tanh b tb r'.2.2.1 r'.2.2.2 with
            | none => rfl
            | some r2 => simp [add_assoc]
        · simp only [forwardGo, if_pos hinp, if_neg htgt] at h1
          exact absurd h1 (by simp)
      · simp only [forwardGo, if_neg hinp] at h1
        exact absurd h1 (by simp)

/-- Claim C4: for two consecutive chunks and any initial state, running
`forward` on the first chunk and then on the second chunk seeded with the
first chunk's returned final memory produces losses summing to the loss of
one `forward` run on the concatenated chunk from the same initial state,
with the same final memory. -/
theorem forward_chunk_carry {V E H : ℕ} (P : Params V E H)
    (exp log tanh : ℚ → ℚ) (a ta b tb : List ℕ) (m0 : Vec H × Vec H)
    (r1 r2 : ℚ × Activations V E H × (Vec H × Vec H))
    (hlen : a.length = ta.length)
    (h1 : forward P exp log tanh a ta m0 = some r1)
    (h2 : forward P exp log tanh b tb r1.2.2 = some r2) :
    (forward P exp log tanh (a ++ b) (ta ++ tb) m0).map
        (fun r => (r.1, r.2.2)) =
      some (r1.1 + r2.1, r2.2.2) := by
  simp only [forward] at h1 h2 ⊢
  cases hg1 : forwardGo P exp log tanh a ta m0.1 m0.2 with
  | none => rw [hg1] at h1; exact absurd h1 (by simp)
  | some q1 =>
    rw [hg1] at h1
    obtain ⟨l1, ss1, hf1, cf1⟩ := q1
    simp only [Option.map_some', Option.some.injEq] at h1
    subst h1
    dsimp only at h2 ⊢
    rw [forwardGo_append P exp log tanh a ta m0.1 m0.2 _ hlen hg1 b tb]
    cases hg2 : forwardGo P exp log tanh b tb hf1 cf1 with
    | none => rw [hg2] at h2; simp at h2
    | some q2 =>
      rw [hg2] at h2
      obtain ⟨l2, ss2, hf2, cf2⟩ := q2
      simp only [Option.map_some', Option.some.injEq] at h2
      subst h2
      rfl

theorem forward_chunk_carry_witness :
    (forward (zeroParams 1 1 1) idfun idfun idfun ([0] ++ [0]) ([0] ++ [0])
        ((0 : Vec 1), (0 : Vec 1))).map (fun r => (r.1, r.2.2)) =
      some (((forward (zeroParams 1 1 1) idfun idfun idfun [0] [0]
                ((0 : Vec 1), (0 : Vec 1))).get (by decide)).1 +
              ((forward (zeroParams 1 1 1) idfun idfun idfun [0] [0]
                ((forward (zeroParams 1 1 1) idfun idfun idfun [0] [0]
                  ((0 : Vec 1), (0 : Vec 1))).get (by decide)).2.2).get
                    (by decide)).1,
            ((forward (zeroParams 1 1 1) idfun idfun idfun [0] [0]
              ((forward (zeroParams 1 1 1) idfun idfun idfun [0] [0]
                ((0 : Vec 1), (0 : Vec 1))).get (by decide)).2.2).get
                  (by decide)).2.2) :=
  forward_chunk_carry (zeroParams 1 1 1) idfun idfun idfun [0] [0] [0] [0]
    (0, 0)
    ((forward (zeroParams 1 1 1) idfun idfun idfun [0] [0]
      ((0 : Vec 1), (0 : Vec 1))).get (by decide))
    ((forward (zeroParams 1 1 1) idfun idfun idfun [0] [0]
      ((forward (zeroParams 1 1 1) idfun idfun idfun [0] [0]
        ((0 : Vec 1), (0 : Vec 1))).get (by decide)).2.2).get (by decide))
    rfl (Option.some_get _).symm (Option.some_get _).symm

lemma forwardGo_length {V E H : ℕ} (P : Params V E H)
    (exp log tanh : ℚ → ℚ) :
    ∀ (inputs targets : List ℕ) (h c : Vec H)
      (r : ℚ × List (FwdStep V E H) × Vec H × Vec H),
      forwardGo P exp log tanh inputs targets h c = some r →
      r.2.1.length = inputs.length := by
  intro inputs
  induction inputs with
  | nil =>
    intro targets h c r hr
    simp only [forwardGo, Option.some.injEq] at hr
    subst hr
    rfl
  | cons inp is ih =>
    intro targets h c r hr
    cases targets with
    | nil =>
      by_cases hin : inp < V <;> simp [forwardGo, hin] at hr
    | cons tgt ts' =>
      by_cases hin : inp < V
      · by_cases htg : tgt < V
        · simp only [forwardGo, if_pos hin, if_pos htg] at hr
          cases hrec : forwardGo P exp log tanh is ts'
              (forwardStep P exp tanh h c inp tgt).hs
              (forwardStep P exp tanh h c inp tgt).cs with
          | none => rw [hrec] at hr; exact absurd hr (by simp)
          | some r' =>
            rw [hrec] at hr
            obtain ⟨l', ss', hf', cf'⟩ := r'
            simp only [Option.some.injEq] at hr
            subst hr
            have := ih ts' _ _ _ hrec
            simpa using this
        · simp [forwardGo, hin, htg] at hr
      · simp [forwardGo, hin] at hr

lemma backwardGo_extend {V E H : ℕ} (P : Params V E H) (tanh : ℚ → ℚ)
    (i1 i2 : Vec H) (steps extra : List (FwdStep V E H)) :
    ∀ (k : ℕ) (dh dc : Vec H), k ≤ steps.length →
      backwardGo P tanh ⟨i1, i2, steps ++ extra⟩ k dh dc =
        backwardGo P tanh ⟨i1, i2, steps⟩ k dh dc := by
  intro k
  induction k with
  | zero => intro dh dc _; rfl
  | succ k ihk =>
    intro dh dc hk
    have hk' : k < steps.length := hk
    have hget : (steps ++ extra).get? k = steps.get? k :=
      List.get?_append hk'
    have hcs : @csPrevAt V E H ⟨i1, i2, steps ++ extra⟩ k =
        @csPrevAt V E H ⟨i1, i2, steps⟩ k := by
      cases k with
      | zero => rfl
      | succ k' =>
        have hk'' : k' < steps.length :=
          lt_trans (Nat.lt_succ_self k') hk'
        simp only [csPrevAt, List.get?_append hk'']
    cases hst : steps.get? k with
    | none => simp only [backwardGo, hget, hcs, hst]
    | some st =>
      cases hcp : @csPrevAt V E H ⟨i1, i2, steps⟩ k with
      | none => simp only [backwardGo, hget, hcs, hst, hcp]
      | some cp =>
        simp only [backwardGo, hget, hcs, hst, hcp]
        rw [ihk _ _ (le_of_lt hk')]

lemma backwardGo_isSome {V E H : ℕ} (P : Params V E H) (tanh : ℚ → ℚ)
    (acts : Activations V E H) :
    ∀ (k : ℕ) (dh dc : Vec H), k ≤ acts.steps.length →
      (backwardGo P tanh acts k dh dc).isSome := by
  intro k
  induction k with
  | zero => intro dh dc _; rfl
  | succ k ihk =>
    intro dh dc hk
    have hk' : k < acts.steps.length := hk
    obtain ⟨st, hst⟩ : ∃ st, acts.steps.get? k = some st := by
      rw [List.get?_eq_get hk']
      exact ⟨_, rfl⟩
    obtain ⟨cp, hcp⟩ : ∃ cp, csPrevAt acts k = some cp := by
      cases k with
      | zero => exact ⟨acts.cs_init, rfl⟩
      | succ k' =>
        have hk'' : k' < acts.steps.length :=
          lt_trans (Nat.lt_succ_self k') hk'
        simp only [csPrevAt, List.get?_eq_get hk'', Option.map_some']
        exact ⟨_, rfl⟩
    simp only [backwardGo, hst, hcp]
    have hrec := ihk (backwardStepVals P tanh st cp dh dc).dhnext
      (backwardStepVals P tanh st cp dh dc).dcnext (le_of_lt hk')
    cases hbg : backwardGo P tanh acts k
        (backwardStepVals P tanh st cp dh dc).dhnext
        (backwardStepVals P tanh st cp dh dc).dcnext with
    | none => rw [hbg] at hrec; exact absurd hrec (by simp)
    | some g => rfl

lemma backwardGo_none_of_long {V E H : ℕ} (P : Params V E H)
    (tanh : ℚ → ℚ) (acts : Activations V E H) :
    ∀ (k : ℕ) (dh dc : Vec H), acts.steps.length < k →
      backwardGo P tanh acts k dh dc = none := by
  intro k
  cases k with
  | zero => intro dh dc hlt; exact absurd hlt (by simp)
  | succ k' =>
    intro dh dc hlt
    have hle : acts.steps.length ≤ k' := Nat.lt_succ_iff.mp hlt
    simp only [backwardGo, List.get?_eq_none.mpr hle]

lemma backward_isSome_of_len {V E H : ℕ} (P : Params V E H)
    (tanh : ℚ → ℚ) (acts : Activations V E H) (clipping : Bool)
    (hne : acts.steps ≠ []) :
    (backward P tanh acts.steps.length acts clipping).isSome := by
  obtain ⟨st0, hst0⟩ : ∃ st0, acts.steps.get? 0 = some st0 := by
    cases hs : acts.steps with
    | nil => exact absurd hs hne
    | cons a l => exact ⟨a, rfl⟩
  simp only [backward, hst0]
  have hrec := backwardGo_isSome P tanh acts acts.steps.length 0 0 (le_refl _)
  cases hbg : backwardGo P tanh acts acts.steps.length 0 0 with
  | none => rw [hbg] at hrec; exact absurd hrec (by simp)
  | some g => rfl

/-- Claim C9: `backward` takes its timestep count from the module-level
global `inputs` (the `inputsLen` argument of this embedding), not from the
activation record it is handed: extending the record with extra timesteps
does not change the result, while an `inputsLen` exceeding the record makes
the dictionary indexing fail.  Under the precondition that the global length
equals the chunk length that produced the activations (and the chunk is
nonempty), every dictionary access is in bounds and the result is exactly
the BPTT gradient computation driven by the record's own length. -/
theorem backward_counts_global_inputs {V E H : ℕ} (P : Params V E H)
    (tanh : ℚ → ℚ) (clipping : Bool) (acts : Activations V E H)
    (inputsLen : ℕ) :
    (acts.steps ≠ [] → inputsLen ≤ acts.steps.length →
      ∀ extra : List (FwdStep V E H),
        backward P tanh inputsLen
            ⟨acts.hs_init, acts.cs_init, acts.steps ++ extra⟩ clipping =
          backward P tanh inputsLen acts clipping)
    ∧ (acts.steps.length < inputsLen →
        backward P tanh inputsLen acts clipping = none)
    ∧ (inputsLen = acts.steps.length → acts.steps ≠ [] →
        (backward P tanh inputsLen acts clipping).isSome = true ∧
        backward P tanh inputsLen acts clipping =
          backward P tanh acts.steps.length acts clipping) := by
  refine ⟨?_, ?_, ?_⟩
  · intro hne hlen extra
    have h0 : 0 < acts.steps.length := List.length_pos.mpr hne
    have hg0 : (acts.steps ++ extra).get? 0 = acts.steps.get? 0 :=
      List.get?_append h0
    simp only [backward, hg0]
    cases acts.steps.get? 0 with
    | none => rfl
    | some st0 =>
      rw [backwardGo_extend P tanh acts.hs_init acts.cs_init acts.steps
        extra inputsLen 0 0 hlen]
  · intro hlt
    cases hs0 : acts.steps.get? 0 with
    | none => simp only [backward, hs0]
    | some st0 =>
      simp only [backward, hs0]
      rw [backwardGo_none_of_long P tanh acts inputsLen 0 0 hlt]
  · intro heq hne
    subst heq
    exact ⟨backward_isSome_of_len P tanh acts clipping hne, rfl⟩

theorem backward_counts_global_inputs_witness :
    ((backward (zeroParams 1 1 1) idfun 1
        (⟨0, 0, [⟨0, 0, 0, 0, 0, 0, 0, 0, 0, 0, 0, 0⟩]⟩ : Activations 1 1 1)
        true).isSome = true) ∧
    backward (zeroParams 1 1 1) idfun 1
        (⟨0, 0, [⟨0, 0, 0, 0, 0, 0, 0, 0, 0, 0, 0, 0⟩]⟩ : Activations 1 1 1)
        true =
      backward (zeroParams 1 1 1) idfun
        (⟨0, 0, [⟨0, 0, 0, 0, 0, 0, 0, 0, 0, 0, 0, 0⟩]⟩ :
          Activations 1 1 1).steps.length
        (⟨0, 0, [⟨0, 0, 0, 0, 0, 0, 0, 0, 0, 0, 0, 0⟩]⟩ : Activations 1 1 1)
        true :=
  (backward_counts_global_inputs (zeroParams 1 1 1) idfun true
      (⟨0, 0, [⟨0, 0, 0, 0, 0, 0, 0, 0, 0, 0, 0, 0⟩]⟩ : Activations 1 1 1)
      1).2.2 (by decide) (List.cons_ne_nil _ _)

lemma adagrad1_mem_le (lr : ℚ) (sqrtq : ℚ → ℚ) (p m g : ℚ) :
    m ≤ (adagrad1 lr sqrtq p m g).2 := by
  simp only [adagrad1]
  exact le_add_of_nonneg_right (mul_self_nonneg g)

lemma adagradUpdate_moms_le {V E H : ℕ} (lr : ℚ) (sqrtq : ℚ → ℚ)
    (P M G : Params V E H) : paramsLE M (adagradUpdate lr sqrtq P M G).2 := by
  refine ⟨?_, ?_, ?_, ?_, ?_, ?_, ?_, ?_, ?_, ?_, ?_⟩ <;>
    (intro i <;> try intro j) <;>
    (dsimp only [adagradUpdate]; exact adagrad1_mem_le lr sqrtq _ _ _)

lemma trainStep_moms_le {V E H : ℕ} (seqLen : ℕ)
    (exp log tanh sqrtq : ℚ → ℚ) (lr : ℚ) (data : List ℕ)
    (st st' : TrainState V E H)
    (h : trainStep seqLen exp log tanh sqrtq lr data st = some st') :
    paramsLE st.moms st'.moms := by
  simp only [trainStep] at h
  split at h
  · exact absurd h (by simp)
  · split at h
    · exact absurd h (by simp)
    · simp only [Option.some.injEq] at h
      subst h
      exact adagradUpdate_moms_le lr sqrtq _ _ _

/-- Claim C5: in training mode each iteration's parameter update is exactly
the Adagrad rule `momentum' = momentum + grad²;
param' = param - learning_rate · grad / sqrt(momentum' + 1e-8)` applied
elementwise per parameter, and consequently every momentum accumulator is
elementwise non-decreasing from each training iteration to the next across
the entire run — it is never reset. -/
theorem adagrad_exact_update_and_momentum_monotone {V E H : ℕ}
    (seqLen : ℕ) (exp log tanh sqrtq : ℚ → ℚ) (lr : ℚ) (data : List ℕ)
    (st0 : TrainState V E H) :
    (∀ param mem grad : ℚ,
       adagrad1 lr sqrtq param mem grad =
         (param - lr * grad / sqrtq ((mem + grad * grad) + 1e-8),
          mem + grad * grad))
    ∧ ∀ k : ℕ,
        paramsLE (runTotal seqLen exp log tanh sqrtq lr data st0 k).moms
          (runTotal seqLen exp log tanh sqrtq lr data st0 (k + 1)).moms := by
  constructor
  · intro p m g
    simp only [adagrad1, Prod.mk.injEq]
    refine ⟨by ring, ?_⟩
    trivial
  · intro k
    simp only [runTotal]
    cases htr : trainStep seqLen exp log tanh sqrtq lr data
        (runTotal seqLen exp log tanh sqrtq lr data st0 k) with
    | none => exact paramsLE_refl _
    | some s =>
      exact trainStep_moms_le seqLen exp log tanh sqrtq lr data _ s htr

/-- Claim C6: at the start of each training iteration the cursor is reset to
`0` and the recurrent state zeroed exactly when the cursor would run past
the corpus end or the iteration counter is `0` (`prepareChunk` returns the
carried state unchanged otherwise), and whenever an iteration completes, its
new `(hprev, cprev)` is exactly the final memory returned by the `forward`
call on the prepared chunk — so the reset branch is the only place the
recurrent state is forgotten. -/
theorem train_reset_rule_and_state_carry {V E H : ℕ} (seqLen : ℕ)
    (exp log tanh sqrtq : ℚ → ℚ) (lr : ℚ) (data : List ℕ) :
    (∀ (n p : ℕ) (h c : Vec H),
       ((p + seqLen + 1 ≥ data.length ∨ n = 0) →
          prepareChunk H data.length seqLen n p h c = (0, 0, 0)) ∧
       (¬(p + seqLen + 1 ≥ data.length ∨ n = 0) →
          prepareChunk H data.length seqLen n p h c = (p, h, c)))
    ∧ (∀ st : TrainState V E H,
        inputsOf seqLen data
            (prepareChunk H data.length seqLen st.n st.p st.hprev st.cprev).1
          ≠ [] →
        (trainStep seqLen exp log tanh sqrtq lr data st).map
            (fun s => (s.hprev, s.cprev)) =
          (forward st.params exp log tanh
            (inputsOf seqLen data
              (prepareChunk H data.length seqLen st.n st.p st.hprev
                st.cprev).1)
            (targetsOf seqLen data
              (prepareChunk H data.length seqLen st.n st.p st.hprev
                st.cprev).1)
            ((prepareChunk H data.length seqLen st.n st.p st.hprev
                st.cprev).2.1,
             (prepareChunk H data.length seqLen st.n st.p st.hprev
                st.cprev).2.2)).map (fun r => r.2.2)) := by
  constructor
  · intro n p h c
    constructor
    · intro hcond
      simp only [prepareChunk, if_pos hcond]
    · intro hcond
      simp only [prepareChunk, if_neg hcond]
  · intro st hne
    cases hf : forward st.params exp log tanh
        (inputsOf seqLen data
          (prepareChunk H data.length seqLen st.n st.p st.hprev st.cprev).1)
        (targetsOf seqLen data
          (prepareChunk H data.length seqLen st.n st.p st.hprev st.cprev).1)
        ((prepareChunk H data.length seqLen st.n st.p st.hprev st.cprev).2.1,
         (prepareChunk H data.length seqLen st.n st.p st.hprev st.cprev).2.2)
        with
    | none =>
      have htr : trainStep seqLen exp log tanh sqrtq lr data st = none := by
        simp only [trainStep, hf]
      rw [htr]
      rfl
    | some r =>
      obtain ⟨loss, acts, mem⟩ := r
      have hsteps : acts.steps.length =
          (inputsOf seqLen data
            (prepareChunk H data.length seqLen st.n st.p st.hprev
              st.cprev).1).length := by
        have hf' := hf
        simp only [forward] at hf'
        cases hg : forwardGo st.params exp log tanh
            (inputsOf seqLen data
              (prepareChunk H data.length seqLen st.n st.p st.hprev
                st.cprev).1)
            (targetsOf seqLen data
              (prepareChunk H data.length seqLen st.n st.p st.hprev
                st.cprev).1)
            (prepareChunk H data.length seqLen st.n st.p st.hprev
              st.cprev).2.1
            (prepareChunk H data.length seqLen st.n st.p st.hprev
              st.cprev).2.2 with
        | none => rw [hg] at hf'; exact absurd hf' (by simp)
        | some q =>
          rw [hg] at hf'
          simp only [Option.map_some', Option.some.injEq,
            Prod.mk.injEq] at hf'
          have hq := forwardGo_length st.params exp log tanh _ _ _ _ _ hg
          rw [← hf'.2.1]
          exact hq
      have hne' : acts.steps ≠ [] := by
        intro hnil
        rw [hnil] at hsteps
        exact hne (List.length_eq_zero.mp hsteps.symm)
      have hbs := backward_isSome_of_len st.params tanh acts true hne'
      rw [hsteps] at hbs
      cases hb : backward st.params tanh
          (inputsOf seqLen data
            (prepareChunk H data.length seqLen st.n st.p st.hprev
              st.cprev).1).length acts true with
      | none => rw [hb] at hbs; exact absurd hbs (by simp)
      | some g =>
        have htr : trainStep seqLen exp log tanh sqrtq lr data st =
            some ⟨st.n + 1,
              (prepareChunk H data.length seqLen st.n st.p st.hprev
                st.cprev).1 + seqLen,
              mem.1, mem.2, (adagradUpdate lr sqrtq st.params st.moms g).1,
              (adagradUpdate lr sqrtq st.params st.moms g).2,
              st.smooth_loss * (999/1000) + loss * (1/1000)⟩ := by
          simp only [trainStep, hf, hb]
        simp [htr]

theorem train_reset_rule_and_state_carry_witness :
    (prepareChunk 1 ([0, 0, 0] : List ℕ).length 1 0 5 (fun _ => 2)
        (fun _ => 3) = (0, 0, 0)) ∧
    ((trainStep 1 idfun idfun idfun idfun (1/20) [0, 0, 0]
        (⟨0, 0, 0, 0, zeroParams 1 1 1, zeroParams 1 1 1, 0⟩ :
          TrainState 1 1 1)).map (fun s => (s.hprev, s.cprev)) =
      (forward (zeroParams 1 1 1) idfun idfun idfun
        (inputsOf 1 [0, 0, 0]
          (prepareChunk 1 ([0, 0, 0] : List ℕ).length 1 0 0 0 0).1)
        (targetsOf 1 [0, 0, 0]
          (prepareChunk 1 ([0, 0, 0] : List ℕ).length 1 0 0 0 0).1)
        ((prepareChunk 1 ([0, 0, 0] : List ℕ).length 1 0 0 0 0).2.1,
         (prepareChunk 1 ([0, 0, 0] : List ℕ).length 1 0 0 0 0).2.2)).map
        (fun r => r.2.2)) :=
  ⟨((@train_reset_rule_and_state_carry 1 1 1 1 idfun idfun idfun idfun
      (1/20) [0, 0, 0]).1 0 5 (fun _ => 2) (fun _ => 3)).1 (by decide),
   (@train_reset_rule_and_state_carry 1 1 1 1 idfun idfun idfun idfun
      (1/20) [0, 0, 0]).2
    (⟨0, 0, 0, 0, zeroParams 1 1 1, zeroParams 1 1 1, 0⟩ : TrainState 1 1 1)
    (by decide)⟩

lemma forwardGo_none_of_short_targets {V E H : ℕ} (P : Params V E H)
    (exp log tanh : ℚ → ℚ) :
    ∀ (inputs targets : List ℕ) (h c : Vec H),
      targets.length < inputs.length →
      forwardGo P exp log tanh inputs targets h c = none := by
  intro inputs
  induction inputs with
  | nil => intro targets h c hlt; exact absurd hlt (by simp)
  | cons inp is ih =>
    intro targets h c hlt
    by_cases hin : inp < V
    · cases targets with
      | nil => simp [forwardGo, hin]
      | cons tgt ts' =>
        by_cases htg : tgt < V
        · have hlt' : ts'.length < is.length := by simpa using hlt
          simp only [forwardGo, if_pos hin, if_pos htg]
          rw [ih ts' _ _ hlt']
        · simp [forwardGo, hin, htg]
    · simp [forwardGo, hin]

/-- Claim C8 (amended): the program has no explicit startup guard for a
corpus shorter than one chunk or for an empty vocabulary.  With a nonempty
corpus no longer than `seq_length`, the first training iteration slices
truncated, unequal-length `inputs`/`targets` and the iteration dies with an
uncaught indexing error inside the forward pass (modelled `none`), not with
a precondition diagnostic raised at startup before forward computation. -/
theorem short_corpus_unguarded {V E H : ℕ} (seqLen : ℕ)
    (exp log tanh sqrtq : ℚ → ℚ) (lr : ℚ) (data : List ℕ)
    (st : TrainState V E H) (hn : st.n = 0) (hpos : 0 < data.length)
    (hshort : data.length ≤ seqLen) :
    trainStep seqLen exp log tanh sqrtq lr data st = none := by
  have hcond : st.p + seqLen + 1 ≥ data.length ∨ st.n = 0 := Or.inr hn
  have hlt : (targetsOf seqLen data 0).length <
      (inputsOf seqLen data 0).length := by
    simp only [inputsOf, targetsOf, List.length_take, List.length_drop,
      List.drop_zero]
    have h1 : min seqLen data.length = data.length :=
      Nat.min_eq_right hshort
    have h2 : min seqLen (data.length - 1) = data.length - 1 :=
      Nat.min_eq_right (le_trans (Nat.sub_le _ _) hshort)
    rw [h1, h2]
    omega
  have hfwd : forward st.params exp log tanh (inputsOf seqLen data 0)
      (targetsOf seqLen data 0) ((0 : Vec H), (0 : Vec H)) = none := by
    simp only [forward]
    rw [forwardGo_none_of_short_targets st.params exp log tanh _ _ _ _ hlt]
    rfl
  simp only [trainStep, prepareChunk, if_pos hcond, hfwd]

theorem short_corpus_unguarded_witness :
    trainStep 64 idfun idfun idfun idfun (1/20) [0, 1]
      (⟨0, 0, 0, 0, zeroParams 2 1 1, zeroParams 2 1 1, 0⟩ :
        TrainState 2 1 1) = none :=
  short_corpus_unguarded 64 idfun idfun idfun idfun (1/20) [0, 1]
    (⟨0, 0, 0, 0, zeroParams 2 1 1, zeroParams 2 1 1, 0⟩ : TrainState 2 1 1)
    rfl (by decide) (by decide)

/-- Claim C8, counterexample to the claim as stated: on the two-character
corpus `[0, 1]` (vocabulary size 2, `seq_length = 64`), startup and chunk
preparation raise nothing — they hand `inputs = [0, 1]`, `targets = [1]` to
`forward` — and forward computation does run on this input: the one-step
prefix completes successfully, and the full call then dies on the missing
`targets[1]` inside the loop (`none`), not as a precondition failure before
any forward/backward computation. -/
theorem short_corpus_reaches_forward :
    inputsOf 64 [0, 1] 0 = [0, 1] ∧
    targetsOf 64 [0, 1] 0 = [1] ∧
    ((forward (zeroParams 2 1 1) idfun idfun idfun [0] [1]
        ((0 : Vec 1), (0 : Vec 1))).isSome = true) ∧
    forward (zeroParams 2 1 1) idfun idfun idfun [0, 1] [1]
        ((0 : Vec 1), (0 : Vec 1)) = none :=
  ⟨by decide, by decide, by decide, rfl⟩

theorem gradcheck_rel_error_unguarded_witness :
    |(0 : ℚ) + 0| = 0 ∧
    rel_error 0 0 = |(0 : ℚ) - 0| / |(0 : ℚ) + 0| ∧
    gradcheckPair "Wf" (2, 3) (2, 3) [((0 : ℚ), (0 : ℚ))] =
      .ok ("Wf", [rel_error 0 0 > 1/100]) :=
  gradcheck_rel_error_unguarded 0 0 "Wf" (2, 3) [] (by norm_num)

end LstmPy
